import Mathlib

/-!
Verification development for the `lazy_blender_tools` custom-wireframe core
(`src/profiled_wireframe.py` and its near-duplicate
`src/custom_wireframe_with_profiles.py`).

Embedding conventions:
* Python floats are modelled as elements of a linear ordered commutative
  ring `K` (instantiated with `ℝ` for the trigonometric / square-root
  geometry and with `ℤ` for executable witnesses and counterexamples).
  Exact float equality (`Vector.freeze` dictionary keys) is modelled as
  exact equality in `K`.
* `bmesh` vertex handles (`BMVert`) are modelled as indices into the growing
  vertex buffer of the output mesh; `new_bm.verts.new` appends to that buffer.
* External host operations (`mathutils.Vector.rotation_difference`,
  `bmesh.ops.convex_hull`, `bmesh.ops.remove_doubles`) are translated from
  their documented Blender semantics; the convex hull is kept as an explicit
  function parameter since only its interface contract matters to the claims.
-/

set_option linter.unusedSectionVars false
set_option linter.unusedVariables false

namespace LBT

/-- Coordinate triple, modelling a `mathutils.Vector` of length 3. -/
structure Vec3 (K : Type) where
  x : K
  y : K
  z : K
deriving DecidableEq

variable {K : Type} [LinearOrderedCommRing K]

/-- Componentwise vector addition. -/
def vadd (a b : Vec3 K) : Vec3 K := ⟨a.x + b.x, a.y + b.y, a.z + b.z⟩

/-- Componentwise vector subtraction (`v2.co - v1.co`). -/
def vsub (a b : Vec3 K) : Vec3 K := ⟨a.x - b.x, a.y - b.y, a.z - b.z⟩

/-- Scalar multiple of a vector. -/
def smul (c : K) (a : Vec3 K) : Vec3 K := ⟨c * a.x, c * a.y, c * a.z⟩

/-- Euclidean inner product. -/
def dot (a b : Vec3 K) : K := a.x * b.x + a.y * b.y + a.z * b.z

/-- Cross product, as in `mathutils`. -/
def cross (a b : Vec3 K) : Vec3 K :=
  ⟨a.y * b.z - a.z * b.y, a.z * b.x - a.x * b.z, a.x * b.y - a.y * b.x⟩

/-- Zero vector. -/
def v0 : Vec3 K := ⟨0, 0, 0⟩

/-- Determinant of the 3×3 matrix with the given columns; it vanishes exactly
when the three vectors are linearly dependent, which is the standard
coplanarity test used for quad planarity below. -/
def det3 (a b c : Vec3 K) : K :=
  a.x * (b.y * c.z - b.z * c.y) - a.y * (b.x * c.z - b.z * c.x)
    + a.z * (b.x * c.y - b.y * c.x)

/-- Row-major 3×3 matrix, modelling the rotation part of the 4×4
`mathutils.Matrix` built by the source (the translation part is applied
separately, mirroring `Matrix.Translation(vert) @ rot_matrix`). -/
structure Mat3 (K : Type) where
  a00 : K
  a01 : K
  a02 : K
  a10 : K
  a11 : K
  a12 : K
  a20 : K
  a21 : K
  a22 : K
deriving DecidableEq

/-- Matrix-vector product (`matrix @ p` on a 3D point). -/
def Mat3.mulVec (m : Mat3 K) (v : Vec3 K) : Vec3 K :=
  ⟨m.a00 * v.x + m.a01 * v.y + m.a02 * v.z,
   m.a10 * v.x + m.a11 * v.y + m.a12 * v.z,
   m.a20 * v.x + m.a21 * v.y + m.a22 * v.z⟩

/-- Identity matrix. -/
def Mat3.idm : Mat3 K := ⟨1, 0, 0, 0, 1, 0, 0, 0, 1⟩

/-!
Profile generator.

`create_profile_core trig` is the branch structure shared by both source
files' `create_profile`; the `trig` parameter supplies the value of
`(math.cos(i * 2 * math.pi / segments), math.sin(i * 2 * math.pi / segments))`
so that the combinatorial content stays executable.  The faithful
real-number instantiations `PW.create_profile` / `CW.create_profile` are
given below.
-/

namespace PW

/-- Branch structure of `create_profile` in `src/profiled_wireframe.py`
(square, round and triangle supported). -/
def create_profile_core (trig : ℕ → ℕ → K × K) (shape_type : String)
    (size : K) (segments : ℕ) : Except String (List (Vec3 K)) :=
  if shape_type = "SQUARE" then
    Except.ok [⟨-size, -size, 0⟩, ⟨size, -size, 0⟩, ⟨size, size, 0⟩, ⟨-size, size, 0⟩]
  else if shape_type = "ROUND" then
    Except.ok ((List.range segments).map fun i =>
      ⟨(trig i segments).1 * size, (trig i segments).2 * size, 0⟩)
  else if shape_type = "TRIANGLE" then
    Except.ok [⟨0, size, 0⟩, ⟨-size, -size, 0⟩, ⟨size, -size, 0⟩]
  else
    Except.error "Unsupported profile type"

/-- Value of `(math.cos(i * 2 * math.pi / segments), math.sin(...))` from the
`ROUND` branch of the source. -/
noncomputable def roundTrig (i segments : ℕ) : ℝ × ℝ :=
  (Real.cos ((i : ℝ) * 2 * Real.pi / (segments : ℝ)),
   Real.sin ((i : ℝ) * 2 * Real.pi / (segments : ℝ)))

/-- The function `create_profile` of `src/profiled_wireframe.py`. -/
noncomputable def create_profile (shape_type : String) (size : ℝ)
    (segments : ℕ) : Except String (List (Vec3 ℝ)) :=
  create_profile_core roundTrig shape_type size segments

end PW

namespace CW

/-- Branch structure of `create_profile` in
`src/custom_wireframe_with_profiles.py`: identical to the other file except
that there is no `TRIANGLE` branch, so `TRIANGLE` falls through to the
`ValueError`. -/
def create_profile_core (trig : ℕ → ℕ → K × K) (shape_type : String)
    (size : K) (segments : ℕ) : Except String (List (Vec3 K)) :=
  if shape_type = "SQUARE" then
    Except.ok [⟨-size, -size, 0⟩, ⟨size, -size, 0⟩, ⟨size, size, 0⟩, ⟨-size, size, 0⟩]
  else if shape_type = "ROUND" then
    Except.ok ((List.range segments).map fun i =>
      ⟨(trig i segments).1 * size, (trig i segments).2 * size, 0⟩)
  else
    Except.error "Unsupported profile type"

/-- The function `create_profile` of `src/custom_wireframe_with_profiles.py`. -/
noncomputable def create_profile (shape_type : String) (size : ℝ)
    (segments : ℕ) : Except String (List (Vec3 ℝ)) :=
  create_profile_core PW.roundTrig shape_type size segments

end CW

/-!
Edge pass (`for edge in bm.edges: ...` of `extrude_profiles_along_edges`,
lines 146-183 of `src/profiled_wireframe.py`; lines 115-151 of the duplicate
are textually identical).  Edges of the input mesh always have exactly two
vertices, so the `len(edge_verts) == 2` guard of the source is always taken
and an edge is modelled as an ordered pair of endpoint coordinates.
The per-edge rotation (`rot_matrix`, from
`edge_direction.rotation_difference(z_axis).to_matrix()`) is abstracted as
the `frameOf` parameter; its real-number value is `rot_matrix` below.
-/

/-- Growing output state: the vertex buffer and face list of `new_bm`, plus
the `profiles_at_corners` dictionary (an insertion-ordered association list
keyed by the frozen endpoint coordinate, holding the profile-instance vertex
lists recorded at that corner). -/
structure BuildState (K : Type) where
  verts : List (Vec3 K)
  faces : List (List ℕ)
  corners : List (Vec3 K × List (List ℕ))
deriving DecidableEq

/-- The `profiles_at_corners[key].append(inst)` operation (together with the
`if key not in profiles_at_corners: ... = []` initialisation): appends `inst`
to the bucket of `key`, creating the bucket at the end of the dictionary when
the exact coordinate `key` is not yet present. -/
def cornersInsert (m : List (Vec3 K × List (List ℕ))) (key : Vec3 K)
    (inst : List ℕ) : List (Vec3 K × List (List ℕ)) :=
  match m with
  | [] => [(key, [inst])]
  | (k, l) :: rest =>
    if k = key then (k, l ++ [inst]) :: rest
    else (k, l) :: cornersInsert rest key inst

/-- Dictionary lookup by exact (frozen) coordinate. -/
def cornersLookup (m : List (Vec3 K × List (List ℕ))) (p : Vec3 K) :
    List (List ℕ) :=
  match m with
  | [] => []
  | (k, l) :: rest => if k = p then l else cornersLookup rest p

/-- Loop body of the edge pass for one edge `(v1, v2)`:
computes the two transformed profile instances
(`trans_matrix @ rot_matrix @ p`, i.e. rotate then translate), appends their
vertices to `new_bm` (`start_verts` then `end_verts`), emits the `N` lateral
quad faces `[start[i], end[i], end[(i+1)%N], start[(i+1)%N]]`, and records
both instances in `profiles_at_corners` under the frozen endpoint keys. -/
def processEdge (frameOf : Vec3 K → Vec3 K → Mat3 K)
    (profile_shape : List (Vec3 K)) (st : BuildState K)
    (e : Vec3 K × Vec3 K) : BuildState K :=
  let v1 := e.1
  let v2 := e.2
  let rm := frameOf v1 v2
  let startPts := profile_shape.map fun p => vadd (rm.mulVec p) v1
  let endPts := profile_shape.map fun p => vadd (rm.mulVec p) v2
  let base := st.verts.length
  let n := profile_shape.length
  let startIdx := (List.range n).map fun i => base + i
  let endIdx := (List.range n).map fun i => base + n + i
  let newFaces := (List.range n).map fun i =>
    [base + i, base + n + i, base + n + (i + 1) % n, base + (i + 1) % n]
  { verts := st.verts ++ startPts ++ endPts
    faces := st.faces ++ newFaces
    corners := cornersInsert (cornersInsert st.corners v1 startIdx) v2 endIdx }

/-- The whole edge loop, starting from the empty `new_bm` and empty
`profiles_at_corners`. -/
def edgePass (frameOf : Vec3 K → Vec3 K → Mat3 K)
    (profile_shape : List (Vec3 K)) (edges : List (Vec3 K × Vec3 K)) :
    BuildState K :=
  edges.foldl (processEdge frameOf profile_shape) ⟨[], [], []⟩

/-!
Junction closing (`close_corner_with_convex_hull`, lines 97-109, and the
corner loop, lines 185-187).  `bmesh.ops.convex_hull` is external host
functionality; it is modelled as a function `hull` from the current vertex
buffer and the list of input vertex indices to the list of cap faces it
creates.  The claims only use its interface contract (non-empty output on at
least 4 input vertices, output faces use only input vertices), stated as
hypotheses where needed.
-/

/-- The function `close_corner_with_convex_hull`: concatenates the profile
vertex lists of one corner and runs the hull when more than 3 vertices are
collected, otherwise does nothing. -/
def close_corner_with_convex_hull
    (hull : List (Vec3 K) → List ℕ → List (List ℕ))
    (verts : List (Vec3 K)) (corner_profiles : List (List ℕ)) :
    List (List ℕ) :=
  let corner_verts := corner_profiles.flatten
  if 3 < corner_verts.length then hull verts corner_verts else []

/-- Cap faces contributed by one corner: the driver only calls
`close_corner_with_convex_hull` when the corner holds more than one profile
instance (`if len(corner_profiles) > 1`). -/
def cornerCap (hull : List (Vec3 K) → List ℕ → List (List ℕ))
    (verts : List (Vec3 K)) (corner_profiles : List (List ℕ)) :
    List (List ℕ) :=
  if 1 < corner_profiles.length then
    close_corner_with_convex_hull hull verts corner_profiles
  else []

/-- The corner loop (`for corner, corner_profiles in
profiles_at_corners.items(): ...`), appending every corner's cap faces to
the output mesh. -/
def cornerPass (hull : List (Vec3 K) → List ℕ → List (List ℕ))
    (st : BuildState K) : BuildState K :=
  { st with
    faces := st.faces ++ (st.corners.map fun kv => cornerCap hull st.verts kv.2).flatten }

/-!
Vertex welder (`merge_prism_vertices`, lines 81-94, delegating to
`bmesh.ops.remove_doubles`).  Blender's remove-doubles finds, in vertex
order, groups of vertices within the merge distance of an already kept
vertex and welds each such vertex onto the first kept vertex in range (kept
vertices keep their positions); faces are remapped accordingly and faces
left with fewer than 3 distinct vertices are dropped.
-/

/-- Mesh acted on by the welder: vertex buffer plus faces as index lists. -/
structure WMesh (K : Type) where
  verts : List (Vec3 K)
  faces : List (List ℕ)
deriving DecidableEq

/-- Squared Euclidean distance (comparison against the squared threshold is
equivalent to comparing Euclidean distances for nonnegative thresholds). -/
def distSq (a b : Vec3 K) : K :=
  (a.x - b.x) ^ 2 + (a.y - b.y) ^ 2 + (a.z - b.z) ^ 2

/-- One left-to-right sweep of remove-doubles: `kept` is the buffer of
vertices kept so far; each incoming vertex is either welded onto the first
kept vertex within the distance threshold (recording that target's index) or
appended to `kept` as a new kept vertex.  Returns the final kept buffer and
the old-index-to-new-index map. -/
def removeDoublesAux (t : K) (kept : List (Vec3 K)) :
    List (Vec3 K) → List (Vec3 K) × List ℕ
  | [] => (kept, [])
  | v :: rest =>
    let hit := kept.findIdx fun w => decide (distSq w v ≤ t * t)
    if hit < kept.length then
      let r := removeDoublesAux t kept rest
      (r.1, hit :: r.2)
    else
      let r := removeDoublesAux t (kept ++ [v]) rest
      (r.1, kept.length :: r.2)

/-- The `bmesh.ops.remove_doubles(bm, verts=bm.verts, dist=t)` call: weld
vertices, remap every face through the index map, and drop faces that no
longer have at least 3 distinct vertices. -/
def remove_doubles (mesh : WMesh K) (dist : K) : WMesh K :=
  let r := removeDoublesAux dist [] mesh.verts
  ⟨r.1,
   (mesh.faces.map fun fc => fc.map fun i => r.2.getD i 0).filter
     fun fc => decide (3 ≤ fc.dedup.length)⟩

/-- The function `merge_prism_vertices` of `src/profiled_wireframe.py`
(its body is the remove-doubles call on the new object's mesh). -/
def merge_prism_vertices (mesh : WMesh K) (merge_threshold : K) : WMesh K :=
  remove_doubles mesh merge_threshold

/-!
Scene-level driver (`extrude_profiles_along_edges`, lines 112-192).
The Blender scene is modelled only as far as the driver touches it: the
input object (name, per-object scale, mesh data) and the list of objects the
driver links into the collection.  `bpy.ops.object.mode_set` calls do not
affect any modelled state.
-/

/-- Mesh datablock of a scene object: vertex coordinates, edges and faces as
index records. -/
structure MeshData (K : Type) where
  verts : List (Vec3 K)
  edges : List (ℕ × ℕ)
  faces : List (List ℕ)
deriving DecidableEq

/-- A scene object: its datablock plus the per-object scale that
`bpy.ops.object.transform_apply(scale=True)` bakes into the vertex data. -/
structure SceneObject (K : Type) where
  name : String
  scale : Vec3 K
  mesh : MeshData K
deriving DecidableEq

/-- The function `apply_object_scale`: multiplies every vertex coordinate
componentwise by the object's scale and resets the scale to 1 (the effect of
`transform_apply(location=False, rotation=False, scale=True)`). -/
def apply_object_scale (obj : SceneObject K) : SceneObject K :=
  { obj with
    scale := ⟨1, 1, 1⟩
    mesh := { obj.mesh with
      verts := obj.mesh.verts.map fun v =>
        ⟨obj.scale.x * v.x, obj.scale.y * v.y, obj.scale.z * v.z⟩ } }

/-- The function `delete_faces`: removes all faces of the object's mesh,
keeping its edges and vertices (`bmesh.ops.delete(..., context='FACES_ONLY')`). -/
def delete_faces (obj : SceneObject K) : SceneObject K :=
  { obj with mesh := { obj.mesh with faces := [] } }

/-- Result of one driver invocation: the (possibly mutated) input object,
the list of new objects linked into the collection, and the normal or
exceptional outcome of the call. -/
structure DriverOutcome (K : Type) where
  input : SceneObject K
  linked : List (SceneObject K)
  result : Except String Unit

/-- Empty mesh datablock (`bpy.data.meshes.new('ProfiledMesh')`). -/
def emptyMesh : MeshData K := ⟨[], [], []⟩

/-- The driver `extrude_profiles_along_edges` (common to both source files),
with the external collaborators as parameters: `trig` for the round-profile
trigonometry, `frameOf` for the per-edge rotation matrix, `hull` for
`bmesh.ops.convex_hull`.  Mirrors the source's order of effects: scale
application, optional face deletion, creation and linking of the new
(initially empty) object, profile generation (whose `ValueError` aborts the
call, leaving the already linked empty object behind), edge pass, corner
pass, write-back and vertex welding. -/
def extrude_profiles_along_edges (trig : ℕ → ℕ → K × K)
    (frameOf : Vec3 K → Vec3 K → Mat3 K)
    (hull : List (Vec3 K) → List ℕ → List (List ℕ))
    (mesh_obj : SceneObject K) (profile_type : String) (size : K)
    (segments : ℕ) (delete_original_faces : Bool) (merge_threshold : K) :
    DriverOutcome K :=
  let obj1 := apply_object_scale mesh_obj
  let obj2 := if delete_original_faces then delete_faces obj1 else obj1
  let newObjEmpty : SceneObject K := ⟨"ProfiledObject", ⟨1, 1, 1⟩, emptyMesh⟩
  match PW.create_profile_core trig profile_type size segments with
  | Except.error e => ⟨obj2, [newObjEmpty], Except.error e⟩
  | Except.ok profile_shape =>
    let edgeEnds := obj2.mesh.edges.map fun e =>
      (obj2.mesh.verts.getD e.1 v0, obj2.mesh.verts.getD e.2 v0)
    let st := cornerPass hull (edgePass frameOf profile_shape edgeEnds)
    let welded := merge_prism_vertices ⟨st.verts, st.faces⟩ merge_threshold
    ⟨obj2,
     [⟨"ProfiledObject", ⟨1, 1, 1⟩, ⟨welded.verts, [], welded.faces⟩⟩],
     Except.ok ()⟩

/-!
Real-number geometry of the per-edge frame
(`edge_direction = (v2.co - v1.co).normalized()`;
`rot_matrix = edge_direction.rotation_difference(z_axis).to_matrix()`).
`mathutils.Vector.rotation_difference` normalizes copies of both vectors and
calls Blender's `rotation_between_vecs_to_quat`, which returns the minimal
rotation taking the first vector to the second: for a non-degenerate cross
product it is the rotation about `axis = cross(a, b)` by the angle between
`a` and `b`; for parallel vectors it is the identity; otherwise it is the
half-turn about a normalized orthogonal of `a`.  For unit `a`, `b` with
`u = cross a b ≠ 0` and `c = dot a b`, the Rodrigues matrix
`c·I + [u]× + (u uᵀ)/(1+c)` is exactly that rotation (using
`‖u‖ = sin θ` and `(1 - cos θ)/sin² θ = 1/(1 + cos θ)`), which avoids any
square root in the main branch.
-/

/-- The local profile normal `Vector((0, 0, 1))`. -/
def zAxis : Vec3 K := ⟨0, 0, 1⟩

/-- Euclidean norm. -/
noncomputable def norm3 (v : Vec3 ℝ) : ℝ := Real.sqrt (dot v v)

/-- `mathutils.Vector.normalized()`: divides by the norm, returning the zero
vector for (near-)zero input instead of raising. -/
noncomputable def normalized (v : Vec3 ℝ) : Vec3 ℝ :=
  if norm3 v = 0 then v0 else smul (1 / norm3 v) v

/-- Blender's `ortho_v3_v3`: a vector orthogonal to `v`, chosen by the
dominant axis of `v` (used only in the antiparallel branch of
`rotation_between_vecs_to_quat`). -/
def ortho3 (v : Vec3 K) : Vec3 K :=
  if |v.y| < |v.x| then
    if |v.z| < |v.x| then ⟨-v.y - v.z, v.x, v.x⟩ else ⟨v.z, v.z, -v.x - v.y⟩
  else
    if |v.z| < |v.y| then ⟨v.y, -v.x - v.z, v.y⟩ else ⟨v.z, v.z, -v.x - v.y⟩

/-- `Quaternion.to_matrix()` for the quaternion `(w, q)` (Blender's
`quat_to_mat3`); the zero quaternion yields the identity matrix. -/
def quatToMat3 (w : K) (q : Vec3 K) : Mat3 K :=
  ⟨1 - 2 * (q.y ^ 2 + q.z ^ 2), 2 * (q.x * q.y - w * q.z), 2 * (q.x * q.z + w * q.y),
   2 * (q.x * q.y + w * q.z), 1 - 2 * (q.x ^ 2 + q.z ^ 2), 2 * (q.y * q.z - w * q.x),
   2 * (q.x * q.z - w * q.y), 2 * (q.y * q.z + w * q.x), 1 - 2 * (q.x ^ 2 + q.y ^ 2)⟩

/-- Rodrigues matrix `c·I + [u]× + (u uᵀ)/(1+c)` of the rotation taking the
unit vector `a` to the unit vector `b`, where `u = cross a b ≠ 0` and
`c = dot a b` (see the section comment for the derivation from Blender's
axis-angle form). -/
noncomputable def rodriguesMat (c : ℝ) (u : Vec3 ℝ) : Mat3 ℝ :=
  let k := 1 / (1 + c)
  ⟨c + k * u.x * u.x, -u.z + k * u.x * u.y, u.y + k * u.x * u.z,
   u.z + k * u.y * u.x, c + k * u.y * u.y, -u.x + k * u.y * u.z,
   -u.y + k * u.z * u.x, u.x + k * u.z * u.y, c + k * u.z * u.z⟩

/-- `va.rotation_difference(vb).to_matrix()`: normalizes both inputs and
dispatches on the cross product as Blender's
`rotation_between_vecs_to_quat` does. -/
noncomputable def rotation_difference (va vb : Vec3 ℝ) : Mat3 ℝ :=
  let a := normalized va
  let b := normalized vb
  let u := cross a b
  if u = v0 then
    if 0 < dot a b then Mat3.idm
    else quatToMat3 0 (normalized (ortho3 a))
  else rodriguesMat (dot a b) u

/-- The per-edge rotation of the source:
`(v2.co - v1.co).normalized().rotation_difference(z_axis).to_matrix()`. -/
noncomputable def rot_matrix (v1 v2 : Vec3 ℝ) : Mat3 ℝ :=
  rotation_difference (normalized (vsub v2 v1)) zAxis

/-- The `SQUARE` point list of `create_profile` at half-width `s`. -/
def squareProfile (s : K) : List (Vec3 K) :=
  [⟨-s, -s, 0⟩, ⟨s, -s, 0⟩, ⟨s, s, 0⟩, ⟨-s, s, 0⟩]

/-!
Concrete collaborator instantiations used by executable witnesses and
counterexamples (the examined facts do not depend on these parameters).
-/

/-- A hull stub returning the single face consisting of all input vertices;
it satisfies the interface contract of `bmesh.ops.convex_hull` used by the
claims (non-empty output on enough input, faces use only input vertices). -/
def singletonHull : List (Vec3 ℤ) → List ℕ → List (List ℕ) := fun _ l => [l]

/-- A hull stub producing no cap faces. -/
def emptyHull : List (Vec3 ℤ) → List ℕ → List (List ℕ) := fun _ _ => []

/-- Trigonometry stub over `ℚ` (only reached by `ROUND` profiles). -/
def zeroTrig : ℕ → ℕ → ℤ × ℤ := fun _ _ => (0, 0)

/-- Constant identity frame over `ℚ` (the lateral-face combinatorics of the
edge pass do not depend on the rotation values). -/
def constFrame : Vec3 ℤ → Vec3 ℤ → Mat3 ℤ := fun _ _ => Mat3.idm

/-- Claim C4: for every corner, exactly one recorded profile instance yields
zero capping faces; more than one instance with at least 4 aggregate
vertices yields a non-empty convex-hull cap whose vertices all come from the
union of the incident profile instances (given the host convex-hull
contract); and more than one instance with fewer than 4 aggregate vertices
is silently left uncapped. -/
theorem c4_corner_capping (hull : List (Vec3 K) → List ℕ → List (List ℕ))
    (hne : ∀ (vs : List (Vec3 K)) (l : List ℕ), 3 < l.length → hull vs l ≠ [])
    (hsub : ∀ (vs : List (Vec3 K)) (l : List ℕ) (fc : List ℕ) (i : ℕ),
      fc ∈ hull vs l → i ∈ fc → i ∈ l)
    (verts : List (Vec3 K)) (corner_profiles : List (List ℕ)) :
    (corner_profiles.length = 1 → cornerCap hull verts corner_profiles = []) ∧
    (1 < corner_profiles.length → 4 ≤ corner_profiles.flatten.length →
      cornerCap hull verts corner_profiles ≠ [] ∧
      ∀ fc ∈ cornerCap hull verts corner_profiles, ∀ i ∈ fc,
        i ∈ corner_profiles.flatten) ∧
    (1 < corner_profiles.length → corner_profiles.flatten.length < 4 →
      cornerCap hull verts corner_profiles = []) := by
  refine ⟨fun h1 => ?_, fun h1 h4 => ?_, fun h1 h4 => ?_⟩
  · simp [cornerCap, h1]
  · have hgt : 3 < corner_profiles.flatten.length := by omega
    have hcap : cornerCap hull verts corner_profiles =
        hull verts corner_profiles.flatten := by
      simp only [cornerCap, close_corner_with_convex_hull]
      rw [if_pos h1, if_pos hgt]
    rw [hcap]
    exact ⟨hne _ _ hgt, fun fc hfc i hi => hsub _ _ fc i hfc hi⟩
  · have hle : ¬ 3 < corner_profiles.flatten.length := by omega
    simp only [cornerCap, close_corner_with_convex_hull]
    rw [if_pos h1, if_neg hle]

/-- Witness for C4, with the hull contract discharged by the stub hull and a
corner holding two 2-vertex instances. -/
theorem c4_corner_capping_witness :
    (∀ (vs : List (Vec3 ℤ)) (l : List ℕ), 3 < l.length → singletonHull vs l ≠ []) ∧
    (∀ (vs : List (Vec3 ℤ)) (l : List ℕ) (fc : List ℕ) (i : ℕ),
      fc ∈ singletonHull vs l → i ∈ fc → i ∈ l) ∧
    ((([[0, 1], [2, 3]] : List (List ℕ)).length = 1 →
      cornerCap singletonHull [] [[0, 1], [2, 3]] = []) ∧
    (1 < ([[0, 1], [2, 3]] : List (List ℕ)).length →
      4 ≤ ([[0, 1], [2, 3]] : List (List ℕ)).flatten.length →
      cornerCap singletonHull [] [[0, 1], [2, 3]] ≠ [] ∧
      ∀ fc ∈ cornerCap singletonHull [] [[0, 1], [2, 3]], ∀ i ∈ fc,
        i ∈ ([[0, 1], [2, 3]] : List (List ℕ)).flatten) ∧
    (1 < ([[0, 1], [2, 3]] : List (List ℕ)).length →
      ([[0, 1], [2, 3]] : List (List ℕ)).flatten.length < 4 →
      cornerCap singletonHull [] [[0, 1], [2, 3]] = [])) := by
  have hne : ∀ (vs : List (Vec3 ℤ)) (l : List ℕ), 3 < l.length →
      singletonHull vs l ≠ [] := by
    intro vs l h
    simp [singletonHull]
  have hsub : ∀ (vs : List (Vec3 ℤ)) (l : List ℕ) (fc : List ℕ) (i : ℕ),
      fc ∈ singletonHull vs l → i ∈ fc → i ∈ l := by
    intro vs l fc i hfc hi
    simp only [singletonHull, List.mem_singleton] at hfc
    subst hfc
    exact hi
  exact ⟨hne, hsub, c4_corner_capping singletonHull hne hsub [] [[0, 1], [2, 3]]⟩

/-- Inserting an instance under key `k` lengthens exactly the bucket of `k`
(by one) and leaves every other bucket unchanged. -/
theorem cornersLookup_insert_length (m : List (Vec3 K × List (List ℕ)))
    (k p : Vec3 K) (inst : List ℕ) :
    (cornersLookup (cornersInsert m k inst) p).length
      = (cornersLookup m p).length + if k = p then 1 else 0 := by
  induction m with
  | nil =>
    by_cases h : k = p <;> simp [cornersInsert, cornersLookup, h]
  | cons kv rest ih =>
    obtain ⟨k0, l0⟩ := kv
    by_cases h0 : k0 = k
    · subst h0
      by_cases hp : k0 = p
      · subst hp
        simp [cornersInsert, cornersLookup]
      · simp [cornersInsert, cornersLookup, hp]
    · by_cases hp : k0 = p
      · subst hp
        have hkp : k ≠ k0 := fun h => h0 h.symm
        simp [cornersInsert, cornersLookup, h0, hkp]
      · simp [cornersInsert, cornersLookup, h0, hp, ih]

/-- The key list after an insertion: unchanged when the exact key already
exists, otherwise extended by the new key at the end. -/
theorem cornersInsert_keys (m : List (Vec3 K × List (List ℕ)))
    (k : Vec3 K) (inst : List ℕ) :
    (cornersInsert m k inst).map Prod.fst
      = if k ∈ m.map Prod.fst then m.map Prod.fst
        else m.map Prod.fst ++ [k] := by
  induction m with
  | nil => simp [cornersInsert]
  | cons kv rest ih =>
    obtain ⟨k0, l0⟩ := kv
    by_cases h0 : k0 = k
    · subst h0
      simp [cornersInsert]
    · have hne : k ≠ k0 := fun h => h0 h.symm
      by_cases hmem : k ∈ rest.map Prod.fst <;>
        simp [cornersInsert, h0, hne, hmem, ih]

/-- Distinct exact coordinates keep distinct buckets: insertion preserves
key distinctness. -/
theorem cornersInsert_keys_nodup (m : List (Vec3 K × List (List ℕ)))
    (k : Vec3 K) (inst : List ℕ) (h : (m.map Prod.fst).Nodup) :
    ((cornersInsert m k inst).map Prod.fst).Nodup := by
  rw [cornersInsert_keys]
  by_cases hmem : k ∈ m.map Prod.fst
  · simpa [hmem] using h
  · rw [if_neg hmem]
    refine List.Nodup.append h (List.nodup_singleton k) ?_
    intro a ha hb
    simp only [List.mem_singleton] at hb
    subst hb
    exact hmem ha

/-- Bucket growth over the whole edge loop, from an arbitrary starting
state: each processed edge adds one instance to the bucket of each of its
two endpoints (two instances to the same bucket for a degenerate edge). -/
theorem edgeFold_lookup_length (frameOf : Vec3 K → Vec3 K → Mat3 K)
    (profile_shape : List (Vec3 K)) (edges : List (Vec3 K × Vec3 K))
    (st : BuildState K) (p : Vec3 K) :
    (cornersLookup (edges.foldl (processEdge frameOf profile_shape) st).corners p).length
      = (cornersLookup st.corners p).length
        + (edges.map fun e =>
            (if e.1 = p then 1 else 0) + (if e.2 = p then 1 else 0)).sum := by
  induction edges generalizing st with
  | nil => simp
  | cons e rest ih =>
    rw [List.foldl_cons, ih]
    have hstep : (cornersLookup (processEdge frameOf profile_shape st e).corners p).length
        = (cornersLookup st.corners p).length
          + ((if e.1 = p then 1 else 0) + (if e.2 = p then 1 else 0)) := by
      simp only [processEdge]
      rw [cornersLookup_insert_length, cornersLookup_insert_length]
      omega
    rw [hstep]
    simp [Nat.add_assoc]

/-- Key distinctness over the whole edge loop. -/
theorem edgeFold_keys_nodup (frameOf : Vec3 K → Vec3 K → Mat3 K)
    (profile_shape : List (Vec3 K)) (edges : List (Vec3 K × Vec3 K))
    (st : BuildState K) (h : (st.corners.map Prod.fst).Nodup) :
    (((edges.foldl (processEdge frameOf profile_shape) st).corners).map Prod.fst).Nodup := by
  induction edges generalizing st with
  | nil => simpa using h
  | cons e rest ih =>
    rw [List.foldl_cons]
    exact ih _ (by
      simp only [processEdge]
      exact cornersInsert_keys_nodup _ _ _ (cornersInsert_keys_nodup _ _ _ h))

/-- Claim C5: corner aggregation is by exact coordinate equality.  The
bucket of a position `p` receives exactly one profile-instance list per
endpoint occurrence that is exactly equal to `p` (spatially close but
unequal endpoints contribute nothing), and the corner keys are pairwise
distinct. -/
theorem c5_corner_bucketing (frameOf : Vec3 K → Vec3 K → Mat3 K)
    (profile_shape : List (Vec3 K)) (edges : List (Vec3 K × Vec3 K))
    (p : Vec3 K) :
    (cornersLookup (edgePass frameOf profile_shape edges).corners p).length
      = (edges.map fun e =>
          (if e.1 = p then 1 else 0) + (if e.2 = p then 1 else 0)).sum ∧
    (((edgePass frameOf profile_shape edges).corners).map Prod.fst).Nodup := by
  constructor
  · have h := edgeFold_lookup_length frameOf profile_shape edges
      ⟨[], [], []⟩ p
    simpa [edgePass, cornersLookup] using h
  · exact edgeFold_keys_nodup frameOf profile_shape edges ⟨[], [], []⟩ (by simp)

/-- Claim C7 counterexample: a zero-length edge is neither skipped nor
reported.  On the mesh whose only edge is the degenerate edge from the
origin to itself (SQUARE profile, size 1), the edge pass emits 4 lateral
faces and 8 vertices for that edge and records two profile instances at its
single corner — the claim's "skipped" behavior would emit nothing. -/
theorem c7_counterexample_degenerate_edge_processed :
    (edgePass rot_matrix (squareProfile 1) [(v0, v0)]).faces ≠ [] ∧
    (edgePass rot_matrix (squareProfile 1) [(v0, v0)]).faces.length = 4 ∧
    (edgePass rot_matrix (squareProfile 1) [(v0, v0)]).verts.length = 8 ∧
    (cornersLookup (edgePass rot_matrix (squareProfile 1) [(v0, v0)]).corners v0).length = 2 := by
  refine ⟨?_, ?_, ?_, ?_⟩ <;>
    simp [edgePass, processEdge, squareProfile, cornersInsert, cornersLookup,
      List.length_append, List.length_map, List.length_range]

/-- Claim C7 (amended): the source does not crash on a zero-length edge —
`mathutils` yields the zero direction and the rotation falls back to the
identity matrix — but the edge is fully processed like any other: it
contributes `2N` vertices and `N` (degenerate) faces and registers two
profile instances at its single corner, rather than being skipped or
reported. -/
theorem c7_amended_degenerate_edge (profile_shape : List (Vec3 ℝ))
    (st : BuildState ℝ) (p : Vec3 ℝ) :
    rot_matrix p p = Mat3.idm ∧
    (processEdge rot_matrix profile_shape st (p, p)).verts.length
      = st.verts.length + 2 * profile_shape.length ∧
    (processEdge rot_matrix profile_shape st (p, p)).faces.length
      = st.faces.length + profile_shape.length ∧
    (cornersLookup (processEdge rot_matrix profile_shape st (p, p)).corners p).length
      = (cornersLookup st.corners p).length + 2 := by
  have hsub0 : vsub p p = (v0 : Vec3 ℝ) := by simp [vsub, v0]
  have hn0 : norm3 (v0 : Vec3 ℝ) = 0 := by simp [norm3, dot, v0]
  have hnormz : normalized v0 = (v0 : Vec3 ℝ) := by simp [normalized, hn0]
  have hnz : norm3 (zAxis : Vec3 ℝ) = 1 := by simp [norm3, dot, zAxis]
  have hnormzz : normalized zAxis = (zAxis : Vec3 ℝ) := by
    rw [normalized, if_neg (by rw [hnz]; norm_num), hnz]
    norm_num [smul, zAxis]
  have hcross : cross (v0 : Vec3 ℝ) zAxis = v0 := by simp [cross, v0, zAxis]
  have hdot : dot (v0 : Vec3 ℝ) zAxis = 0 := by simp [dot, v0, zAxis]
  have hortho : ortho3 (v0 : Vec3 ℝ) = v0 := by simp [ortho3, v0]
  refine ⟨?_, ?_, ?_, ?_⟩
  · rw [rot_matrix, hsub0, hnormz]
    simp only [rotation_difference, hnormz, hnormzz]
    rw [hcross, if_pos rfl, hdot, if_neg (lt_irrefl (0 : ℝ)), hortho, hnormz]
    simp [quatToMat3, Mat3.idm, v0]
  · simp [processEdge, List.length_append, List.length_map, List.length_range]
    ring
  · simp [processEdge, List.length_append, List.length_map, List.length_range]
  · simp only [processEdge]
    rw [cornersLookup_insert_length, cornersLookup_insert_length]
    simp

/-- A sample scene object with trivial scale and empty mesh. -/
def sampleObj : SceneObject ℤ := ⟨"Cube", ⟨1, 1, 1⟩, ⟨[], [], []⟩⟩

/-- A sample scene object with a non-trivial scale and one vertex. -/
def scaledObj : SceneObject ℤ := ⟨"Cube", ⟨2, 1, 1⟩, ⟨[⟨1, 0, 0⟩], [], []⟩⟩

/-- Claim C8 counterexample: on an unsupported profile shape the build
aborts, but the new (empty) mesh object has already been created and linked
into the collection — a partially-written object is left attached to the
scene, so the build is not atomic. -/
theorem c8_counterexample_partial_object_on_failure :
    (extrude_profiles_along_edges zeroTrig constFrame emptyHull sampleObj
      ("HEXAGON") 1 12 false 1).result
        = Except.error "Unsupported profile type" ∧
    (extrude_profiles_along_edges zeroTrig constFrame emptyHull sampleObj
      ("HEXAGON") 1 12 false 1).linked ≠ [] := by
  constructor
  · rfl
  · decide

/-- Claim C8 (amended): the failure path is not atomic.  For any shape tag
outside the supported set the driver returns the `UnsupportedShape` error
with the already-linked empty `ProfiledObject` left in the collection, while
every supported shape completes normally with exactly one linked object. -/
theorem c8_amended_not_atomic (trig : ℕ → ℕ → K × K)
    (frameOf : Vec3 K → Vec3 K → Mat3 K)
    (hull : List (Vec3 K) → List ℕ → List (List ℕ))
    (obj : SceneObject K) (shape_type : String) (size : K) (segments : ℕ)
    (del : Bool) (thr : K)
    (hsq : shape_type ≠ "SQUARE") (hrd : shape_type ≠ "ROUND")
    (htr : shape_type ≠ "TRIANGLE") :
    (extrude_profiles_along_edges trig frameOf hull obj shape_type size
      segments del thr).result = Except.error "Unsupported profile type" ∧
    (extrude_profiles_along_edges trig frameOf hull obj shape_type size
      segments del thr).linked = [⟨"ProfiledObject", ⟨1, 1, 1⟩, emptyMesh⟩] ∧
    ∀ shape2 : String,
      shape2 = "SQUARE" ∨ shape2 = "ROUND" ∨ shape2 = "TRIANGLE" →
      (extrude_profiles_along_edges trig frameOf hull obj shape2 size
        segments del thr).result = Except.ok () ∧
      (extrude_profiles_along_edges trig frameOf hull obj shape2 size
        segments del thr).linked.length = 1 := by
  refine ⟨?_, ?_, ?_⟩
  · simp [extrude_profiles_along_edges, PW.create_profile_core, hsq, hrd, htr]
  · simp [extrude_profiles_along_edges, PW.create_profile_core, hsq, hrd, htr]
  · rintro shape2 (rfl | rfl | rfl) <;>
      simp [extrude_profiles_along_edges, PW.create_profile_core]

/-- Witness for C8 at the concrete shape tag HEXAGON. -/
theorem c8_amended_not_atomic_witness :
    ("HEXAGON" : String) ≠ "SQUARE" ∧ ("HEXAGON" : String) ≠ "ROUND" ∧
    ("HEXAGON" : String) ≠ "TRIANGLE" ∧
    (extrude_profiles_along_edges zeroTrig constFrame emptyHull sampleObj
      ("HEXAGON") 1 12 false 1).linked
        = [⟨"ProfiledObject", ⟨1, 1, 1⟩, emptyMesh⟩] :=
  ⟨by decide, by decide, by decide,
    (c8_amended_not_atomic zeroTrig constFrame emptyHull sampleObj
      ("HEXAGON") 1 12 false (1 / 10000)
      (by decide) (by decide) (by decide)).2.1⟩

/-- Claim C9 counterexample: with a non-unit object scale the driver's
scale application rewrites the input mesh's vertex coordinates, so the
input's vertices are not preserved even with `deleteOriginalFaces = False`. -/
theorem c9_counterexample_scale_bakes_vertices :
    (extrude_profiles_along_edges zeroTrig constFrame emptyHull scaledObj
      ("SQUARE") 1 12 false 1).input.mesh.verts
        ≠ scaledObj.mesh.verts := by
  simp only [extrude_profiles_along_edges, PW.create_profile_core, scaledObj,
    apply_object_scale]
  norm_num

/-- Claim C9 (amended): the driver's only effects on the input object are
the scale bake (vertex coordinates multiplied componentwise by the object's
scale) and the optional face deletion; edge connectivity, vertex count,
face list (when not deleting) and the object's name are preserved, and the
output is exactly one separately linked `ProfiledObject`. -/
theorem c9_amended_frame_effect (trig : ℕ → ℕ → K × K)
    (frameOf : Vec3 K → Vec3 K → Mat3 K)
    (hull : List (Vec3 K) → List ℕ → List (List ℕ))
    (obj : SceneObject K) (shape_type : String) (size : K) (segments : ℕ)
    (del : Bool) (thr : K) :
    (extrude_profiles_along_edges trig frameOf hull obj shape_type size
      segments del thr).input.mesh.edges = obj.mesh.edges ∧
    (extrude_profiles_along_edges trig frameOf hull obj shape_type size
      segments del thr).input.mesh.verts
        = obj.mesh.verts.map (fun v =>
            ⟨obj.scale.x * v.x, obj.scale.y * v.y, obj.scale.z * v.z⟩) ∧
    (extrude_profiles_along_edges trig frameOf hull obj shape_type size
      segments del thr).input.mesh.verts.length = obj.mesh.verts.length ∧
    (extrude_profiles_along_edges trig frameOf hull obj shape_type size
      segments del thr).input.mesh.faces
        = (if del then [] else obj.mesh.faces) ∧
    (extrude_profiles_along_edges trig frameOf hull obj shape_type size
      segments del thr).input.name = obj.name ∧
    (extrude_profiles_along_edges trig frameOf hull obj shape_type size
      segments del thr).linked.map SceneObject.name = ["ProfiledObject"] := by
  cases hgen : PW.create_profile_core trig shape_type size segments with
  | error e =>
    cases del <;>
      simp [extrude_profiles_along_edges, hgen, apply_object_scale, delete_faces]
  | ok ps =>
    cases del <;>
      simp [extrude_profiles_along_edges, hgen, apply_object_scale, delete_faces]

/-- Witness for C9 at a concrete scaled object. -/
theorem c9_amended_frame_effect_witness :
    (extrude_profiles_along_edges zeroTrig constFrame emptyHull scaledObj
      ("SQUARE") 1 12 false 1).input.mesh.verts
        = scaledObj.mesh.verts.map (fun v =>
            ⟨scaledObj.scale.x * v.x, scaledObj.scale.y * v.y,
             scaledObj.scale.z * v.z⟩) :=
  (c9_amended_frame_effect zeroTrig constFrame emptyHull scaledObj
    ("SQUARE") 1 12 false 1).2.1

/-- A per-instance property is preserved by a corner insertion whose new
instance satisfies it. -/
theorem cornersInsert_forall {P : List ℕ → Prop}
    (m : List (Vec3 K × List (List ℕ))) (k : Vec3 K) (inst : List ℕ)
    (hm : ∀ kv ∈ m, ∀ l ∈ kv.2, P l) (hi : P inst) :
    ∀ kv ∈ cornersInsert m k inst, ∀ l ∈ kv.2, P l := by
  induction m with
  | nil =>
    intro kv hkv l hl
    simp only [cornersInsert, List.mem_singleton] at hkv
    subst hkv
    simp only [List.mem_singleton] at hl
    subst hl
    exact hi
  | cons kv0 rest ih =>
    obtain ⟨k0, l0⟩ := kv0
    intro kv hkv l hl
    by_cases h0 : k0 = k
    · subst h0
      simp only [cornersInsert, if_pos rfl] at hkv
      rcases List.mem_cons.mp hkv with h | h
      · subst h
        rcases List.mem_append.mp hl with h2 | h2
        · exact hm (k0, l0) (by simp) l h2
        · simp only [List.mem_singleton] at h2
          subst h2
          exact hi
      · exact hm _ (List.mem_cons_of_mem _ h) l hl
    · simp only [cornersInsert, if_neg h0] at hkv
      rcases List.mem_cons.mp hkv with h | h
      · subst h
        exact hm _ (by simp) l hl
      · exact ih (fun kv2 h2 => hm kv2 (List.mem_cons_of_mem _ h2)) kv h l hl

/-- Invariant of the edge pass: every profile instance recorded in any
corner bucket has exactly as many vertex indices as the profile has
points. -/
theorem edgeFold_instance_length (frameOf : Vec3 K → Vec3 K → Mat3 K)
    (profile_shape : List (Vec3 K)) (edges : List (Vec3 K × Vec3 K))
    (st : BuildState K)
    (hst : ∀ kv ∈ st.corners, ∀ l ∈ kv.2, l.length = profile_shape.length) :
    ∀ kv ∈ (edges.foldl (processEdge frameOf profile_shape) st).corners,
      ∀ l ∈ kv.2, l.length = profile_shape.length := by
  induction edges generalizing st with
  | nil => simpa using hst
  | cons e rest ih =>
    rw [List.foldl_cons]
    apply ih
    simp only [processEdge]
    refine cornersInsert_forall _ _ _
      (cornersInsert_forall _ _ _ hst ?_) ?_ <;> simp

/-- Point count of every profile the generator can return: 4 for SQUARE,
`segments` for ROUND, 3 for TRIANGLE — at least 3 whenever `segments ≥ 3`. -/
theorem create_profile_core_length (trig : ℕ → ℕ → K × K)
    (shape_type : String) (size : K) (segments : ℕ) (hseg : 3 ≤ segments)
    (profile_shape : List (Vec3 K))
    (hgen : PW.create_profile_core trig shape_type size segments
      = Except.ok profile_shape) :
    3 ≤ profile_shape.length := by
  unfold PW.create_profile_core at hgen
  split_ifs at hgen
  case _ => simp only [Except.ok.injEq] at hgen; subst hgen; simp
  case _ => simp only [Except.ok.injEq] at hgen; subst hgen; simpa using hseg
  case _ => simp only [Except.ok.injEq] at hgen; subst hgen; simp

/-- Claim C10: since every generated profile has at least 3 points, a corner
holding at least two recorded profile instances aggregates at least 6
vertices, so the junction closer's `> 3` guard is always satisfied there —
the silent small-corner fallback is unreachable for multi-instance
corners. -/
theorem c10_hull_guard_unreachable (trig : ℕ → ℕ → K × K)
    (shape_type : String) (size : K) (segments : ℕ)
    (profile_shape : List (Vec3 K)) (hseg : 3 ≤ segments)
    (hgen : PW.create_profile_core trig shape_type size segments
      = Except.ok profile_shape)
    (frameOf : Vec3 K → Vec3 K → Mat3 K) (edges : List (Vec3 K × Vec3 K))
    (kv : Vec3 K × List (List ℕ))
    (hmem : kv ∈ (edgePass frameOf profile_shape edges).corners)
    (hmulti : 2 ≤ kv.2.length) :
    3 < kv.2.flatten.length := by
  have hN := create_profile_core_length trig shape_type size segments hseg
    profile_shape hgen
  have hinst := edgeFold_instance_length frameOf profile_shape edges
    ⟨[], [], []⟩ (by simp) kv hmem
  have hflat : kv.2.flatten.length = (kv.2.map List.length).sum := by
    simp
  have hmap : kv.2.map List.length
      = List.replicate kv.2.length profile_shape.length := by
    rw [List.eq_replicate_iff]
    refine ⟨by simp, ?_⟩
    intro b hb
    rcases List.mem_map.mp hb with ⟨l, hl, rfl⟩
    exact hinst l hl
  rw [hflat, hmap, List.sum_replicate, smul_eq_mul]
  calc 3 < 2 * 3 := by omega
    _ ≤ kv.2.length * profile_shape.length := Nat.mul_le_mul hmulti hN

/-- Witness for C10: a TRIANGLE profile and two edges meeting at the origin;
the shared corner holds two 3-vertex instances, hence 6 > 3 aggregate
vertices. -/
theorem c10_hull_guard_unreachable_witness :
    3 ≤ 3 ∧
    PW.create_profile_core zeroTrig ("TRIANGLE") (1 : ℤ) 3
      = Except.ok [⟨0, 1, 0⟩, ⟨-1, -1, 0⟩, ⟨1, -1, 0⟩] ∧
    ((⟨v0, [[0, 1, 2], [6, 7, 8]]⟩ : Vec3 ℤ × List (List ℕ))
      ∈ (edgePass constFrame [⟨0, 1, 0⟩, ⟨-1, -1, 0⟩, ⟨1, -1, 0⟩]
          [(v0, ⟨0, 0, 1⟩), (v0, ⟨1, 0, 0⟩)]).corners) ∧
    2 ≤ ([[0, 1, 2], [6, 7, 8]] : List (List ℕ)).length ∧
    3 < ([[0, 1, 2], [6, 7, 8]] : List (List ℕ)).flatten.length :=
  ⟨by decide, by rfl, by decide, by decide,
    c10_hull_guard_unreachable zeroTrig ("TRIANGLE") (1 : ℤ) 3
      [⟨0, 1, 0⟩, ⟨-1, -1, 0⟩, ⟨1, -1, 0⟩] (by decide) (by rfl)
      constFrame [(v0, ⟨0, 0, 1⟩), (v0, ⟨1, 0, 0⟩)]
      ⟨v0, [[0, 1, 2], [6, 7, 8]]⟩ (by decide) (by decide)⟩

/-- Reading a mapped point list at an in-range index. -/
theorem getD_map_pt (f : Vec3 K → Vec3 K) (l : List (Vec3 K)) (i : ℕ)
    (h : i < l.length) : (l.map f).getD i v0 = f (l.getD i v0) := by
  rw [List.getD_eq_getElem _ _ (by simpa using h), List.getElem_map,
    List.getD_eq_getElem _ _ h]

/-- The four corners of one lateral quad are two rotated profile points each
translated by the two edge endpoints; such a quad is always coplanar (the
two start-to-end sides are parallel translates). -/
theorem det3_quad (q1 q2 w1 w2 : Vec3 K) :
    det3 (vsub (vadd q1 w2) (vadd q1 w1)) (vsub (vadd q2 w2) (vadd q1 w1))
      (vsub (vadd q2 w1) (vadd q1 w1)) = 0 := by
  simp only [det3, vadd, vsub]
  ring

/-- Claim C3: one processed edge appends exactly `2N` fresh vertices (the
old buffer is untouched, and the new faces reference only the fresh index
range, so no vertex is shared with another edge's geometry at this stage)
and exactly `N` quadrilateral faces `[start[i], end[i], end[(i+1)%N],
start[(i+1)%N]]`; the recorded vertex positions are the rotated profile
points translated by the respective endpoint, and every lateral face has 4
vertices and is planar. -/
theorem c3_prism_builder (frameOf : Vec3 K → Vec3 K → Mat3 K)
    (profile_shape : List (Vec3 K)) (st : BuildState K) (v1 v2 : Vec3 K) :
    (processEdge frameOf profile_shape st (v1, v2)).verts.length
      = st.verts.length + 2 * profile_shape.length ∧
    (processEdge frameOf profile_shape st (v1, v2)).verts.take st.verts.length
      = st.verts ∧
    (processEdge frameOf profile_shape st (v1, v2)).faces
      = st.faces ++ ((List.range profile_shape.length).map fun i =>
          [st.verts.length + i,
           st.verts.length + profile_shape.length + i,
           st.verts.length + profile_shape.length + (i + 1) % profile_shape.length,
           st.verts.length + (i + 1) % profile_shape.length]) ∧
    (∀ fc ∈ (processEdge frameOf profile_shape st (v1, v2)).faces.drop
        st.faces.length,
      fc.length = 4 ∧ ∀ j ∈ fc, st.verts.length ≤ j ∧
        j < st.verts.length + 2 * profile_shape.length) ∧
    (∀ i, i < profile_shape.length →
      (processEdge frameOf profile_shape st (v1, v2)).verts.getD
          (st.verts.length + i) v0
        = vadd ((frameOf v1 v2).mulVec (profile_shape.getD i v0)) v1 ∧
      (processEdge frameOf profile_shape st (v1, v2)).verts.getD
          (st.verts.length + profile_shape.length + i) v0
        = vadd ((frameOf v1 v2).mulVec (profile_shape.getD i v0)) v2) ∧
    (∀ i, i < profile_shape.length →
      det3
        (vsub ((processEdge frameOf profile_shape st (v1, v2)).verts.getD
            (st.verts.length + profile_shape.length + i) v0)
          ((processEdge frameOf profile_shape st (v1, v2)).verts.getD
            (st.verts.length + i) v0))
        (vsub ((processEdge frameOf profile_shape st (v1, v2)).verts.getD
            (st.verts.length + profile_shape.length
              + (i + 1) % profile_shape.length) v0)
          ((processEdge frameOf profile_shape st (v1, v2)).verts.getD
            (st.verts.length + i) v0))
        (vsub ((processEdge frameOf profile_shape st (v1, v2)).verts.getD
            (st.verts.length + (i + 1) % profile_shape.length) v0)
          ((processEdge frameOf profile_shape st (v1, v2)).verts.getD
            (st.verts.length + i) v0)) = 0) := by
  have hverts : (processEdge frameOf profile_shape st (v1, v2)).verts
      = (st.verts ++ profile_shape.map fun p =>
          vadd ((frameOf v1 v2).mulVec p) v1)
        ++ profile_shape.map fun p => vadd ((frameOf v1 v2).mulVec p) v2 := by
    simp [processEdge, List.append_assoc]
  have hposS : ∀ i, i < profile_shape.length →
      (processEdge frameOf profile_shape st (v1, v2)).verts.getD
          (st.verts.length + i) v0
        = vadd ((frameOf v1 v2).mulVec (profile_shape.getD i v0)) v1 := by
    intro i hi
    rw [hverts,
      List.getD_append _ _ _ _ (by simp; omega),
      List.getD_append_right _ _ _ _ (by omega)]
    have hix : st.verts.length + i - st.verts.length = i := by omega
    rw [hix, getD_map_pt _ _ _ hi]
  have hposE : ∀ i, i < profile_shape.length →
      (processEdge frameOf profile_shape st (v1, v2)).verts.getD
          (st.verts.length + profile_shape.length + i) v0
        = vadd ((frameOf v1 v2).mulVec (profile_shape.getD i v0)) v2 := by
    intro i hi
    rw [hverts, List.getD_append_right _ _ _ _ (by simp)]
    have hix : st.verts.length + profile_shape.length + i
        - (st.verts ++ profile_shape.map fun p =>
            vadd ((frameOf v1 v2).mulVec p) v1).length = i := by
      simp
    rw [hix, getD_map_pt _ _ _ hi]
  refine ⟨?_, ?_, ?_, ?_, fun i hi => ⟨hposS i hi, hposE i hi⟩, ?_⟩
  · simp [processEdge]
    ring
  · rw [hverts, List.append_assoc, List.take_left]
  · simp [processEdge]
  · intro fc hfc
    have hfaces : (processEdge frameOf profile_shape st (v1, v2)).faces
        = st.faces ++ ((List.range profile_shape.length).map fun i =>
            [st.verts.length + i,
             st.verts.length + profile_shape.length + i,
             st.verts.length + profile_shape.length
               + (i + 1) % profile_shape.length,
             st.verts.length + (i + 1) % profile_shape.length]) := by
      simp [processEdge]
    rw [hfaces, List.drop_left] at hfc
    rcases List.mem_map.mp hfc with ⟨i, hi, rfl⟩
    have hin : i < profile_shape.length := List.mem_range.mp hi
    have hmod : (i + 1) % profile_shape.length < profile_shape.length :=
      Nat.mod_lt _ (by omega)
    refine ⟨rfl, ?_⟩
    intro j hj
    simp only [List.mem_cons, List.not_mem_nil, or_false] at hj
    rcases hj with rfl | rfl | rfl | rfl <;> omega
  · intro i hi
    have hmod : (i + 1) % profile_shape.length < profile_shape.length :=
      Nat.mod_lt _ (by omega)
    rw [hposS i hi, hposE i hi, hposS _ hmod, hposE _ hmod]
    exact det3_quad _ _ _ _

/-- Witness for C3: the planarity clause at face 0 of a concrete two-point
profile extruded along the edge from the origin to `(0,0,5)`. -/
theorem c3_prism_builder_witness :
    0 < ([⟨1, 0, 0⟩, ⟨0, 1, 0⟩] : List (Vec3 ℤ)).length ∧
    det3
      (vsub ((processEdge constFrame [⟨1, 0, 0⟩, ⟨0, 1, 0⟩] ⟨[], [], []⟩
          (v0, ⟨0, 0, 5⟩)).verts.getD
          (([] : List (Vec3 ℤ)).length
            + ([⟨1, 0, 0⟩, ⟨0, 1, 0⟩] : List (Vec3 ℤ)).length + 0) v0)
        ((processEdge constFrame [⟨1, 0, 0⟩, ⟨0, 1, 0⟩] ⟨[], [], []⟩
          (v0, ⟨0, 0, 5⟩)).verts.getD (([] : List (Vec3 ℤ)).length + 0) v0))
      (vsub ((processEdge constFrame [⟨1, 0, 0⟩, ⟨0, 1, 0⟩] ⟨[], [], []⟩
          (v0, ⟨0, 0, 5⟩)).verts.getD
          (([] : List (Vec3 ℤ)).length
            + ([⟨1, 0, 0⟩, ⟨0, 1, 0⟩] : List (Vec3 ℤ)).length
            + (0 + 1) % ([⟨1, 0, 0⟩, ⟨0, 1, 0⟩] : List (Vec3 ℤ)).length) v0)
        ((processEdge constFrame [⟨1, 0, 0⟩, ⟨0, 1, 0⟩] ⟨[], [], []⟩
          (v0, ⟨0, 0, 5⟩)).verts.getD (([] : List (Vec3 ℤ)).length + 0) v0))
      (vsub ((processEdge constFrame [⟨1, 0, 0⟩, ⟨0, 1, 0⟩] ⟨[], [], []⟩
          (v0, ⟨0, 0, 5⟩)).verts.getD
          (([] : List (Vec3 ℤ)).length
            + (0 + 1) % ([⟨1, 0, 0⟩, ⟨0, 1, 0⟩] : List (Vec3 ℤ)).length) v0)
        ((processEdge constFrame [⟨1, 0, 0⟩, ⟨0, 1, 0⟩] ⟨[], [], []⟩
          (v0, ⟨0, 0, 5⟩)).verts.getD (([] : List (Vec3 ℤ)).length + 0) v0))
      = 0 :=
  ⟨by decide,
    (c3_prism_builder constFrame [⟨1, 0, 0⟩, ⟨0, 1, 0⟩] ⟨[], [], []⟩
      v0 ⟨0, 0, 5⟩).2.2.2.2.2 0 (by decide)⟩

/-- Reading a range-mapped list at an in-range index. -/
theorem getD_map_range (f : ℕ → Vec3 K) (n i : ℕ) (h : i < n) :
    ((List.range n).map f).getD i v0 = f i := by
  rw [List.getD_eq_getElem _ _ (by simpa using h), List.getElem_map,
    List.getElem_range]

/-- Claim C2 counterexample: the profile generator of
`src/custom_wireframe_with_profiles.py` does not support TRIANGLE — it
raises `UnsupportedShape` for it instead of returning the three documented
points, so `UnsupportedShape` is not raised exactly for tags outside
SQUARE, ROUND, TRIANGLE. -/
theorem c2_counterexample_triangle_unsupported :
    CW.create_profile ("TRIANGLE") 1 3
      ≠ Except.ok [⟨0, 1, 0⟩, ⟨-1, -1, 0⟩, ⟨1, -1, 0⟩] := by
  simp [CW.create_profile, CW.create_profile_core]

/-- Claim C2 (amended): the documented point lists (all at z = 0, with the
ROUND points at Euclidean distance `size` from the local origin, and the
exactly-for-unknown-tags failure) hold for the generator of
`src/profiled_wireframe.py`; the generator of
`src/custom_wireframe_with_profiles.py` agrees on SQUARE and ROUND but
supports no TRIANGLE branch, failing with `UnsupportedShape` for every tag
outside SQUARE and ROUND (including TRIANGLE). -/
theorem c2_profile_generator (size : ℝ) (segments : ℕ)
    (hs : 0 < size) (hseg : 3 ≤ segments) :
    PW.create_profile ("SQUARE") size segments
      = Except.ok [⟨-size, -size, 0⟩, ⟨size, -size, 0⟩,
          ⟨size, size, 0⟩, ⟨-size, size, 0⟩] ∧
    (∀ pts, PW.create_profile ("ROUND") size segments = Except.ok pts →
      pts.length = segments ∧
      ∀ i, i < segments →
        pts.getD i v0
          = ⟨Real.cos ((i : ℝ) * 2 * Real.pi / (segments : ℝ)) * size,
             Real.sin ((i : ℝ) * 2 * Real.pi / (segments : ℝ)) * size, 0⟩ ∧
        norm3 (pts.getD i v0) = size) ∧
    PW.create_profile ("TRIANGLE") size segments
      = Except.ok [⟨0, size, 0⟩, ⟨-size, -size, 0⟩, ⟨size, -size, 0⟩] ∧
    (∀ shape_type : String, shape_type ≠ "SQUARE" → shape_type ≠ "ROUND" →
      shape_type ≠ "TRIANGLE" →
      PW.create_profile shape_type size segments
        = Except.error "Unsupported profile type") ∧
    CW.create_profile ("SQUARE") size segments
      = Except.ok [⟨-size, -size, 0⟩, ⟨size, -size, 0⟩,
          ⟨size, size, 0⟩, ⟨-size, size, 0⟩] ∧
    (∀ pts, CW.create_profile ("ROUND") size segments = Except.ok pts →
      pts.length = segments) ∧
    (∀ shape_type : String, shape_type ≠ "SQUARE" → shape_type ≠ "ROUND" →
      CW.create_profile shape_type size segments
        = Except.error "Unsupported profile type") := by
  refine ⟨?_, ?_, ?_, ?_, ?_, ?_, ?_⟩
  · simp [PW.create_profile, PW.create_profile_core]
  · intro pts h
    simp only [PW.create_profile, PW.create_profile_core] at h
    rw [if_neg (by decide : ¬("ROUND" : String) = "SQUARE")] at h
    simp only [if_true, Except.ok.injEq] at h
    subst h
    refine ⟨by simp, ?_⟩
    intro i hi
    rw [getD_map_range _ _ _ hi]
    refine ⟨by simp [PW.roundTrig], ?_⟩
    simp only [PW.roundTrig, norm3]
    have hd : dot
        (⟨Real.cos ((i : ℝ) * 2 * Real.pi / (segments : ℝ)) * size,
          Real.sin ((i : ℝ) * 2 * Real.pi / (segments : ℝ)) * size, 0⟩ : Vec3 ℝ)
        ⟨Real.cos ((i : ℝ) * 2 * Real.pi / (segments : ℝ)) * size,
          Real.sin ((i : ℝ) * 2 * Real.pi / (segments : ℝ)) * size, 0⟩
        = size ^ 2 := by
      simp only [dot]
      linear_combination (size ^ 2) *
        Real.sin_sq_add_cos_sq ((i : ℝ) * 2 * Real.pi / (segments : ℝ))
    rw [hd, Real.sqrt_sq hs.le]
  · simp [PW.create_profile, PW.create_profile_core]
  · intro shape_type h1 h2 h3
    simp [PW.create_profile, PW.create_profile_core, h1, h2, h3]
  · simp [CW.create_profile, CW.create_profile_core]
  · intro pts h
    simp only [CW.create_profile, CW.create_profile_core] at h
    rw [if_neg (by decide : ¬("ROUND" : String) = "SQUARE")] at h
    simp only [if_true, Except.ok.injEq] at h
    subst h
    simp
  · intro shape_type h1 h2
    simp [CW.create_profile, CW.create_profile_core, h1, h2]

/-- Witness for C2 at size 1, segments 3 (representative TRIANGLE clause of
the two generators). -/
theorem c2_profile_generator_witness :
    (0 : ℝ) < 1 ∧ 3 ≤ 3 ∧
    PW.create_profile ("TRIANGLE") 1 3
      = Except.ok [⟨0, 1, 0⟩, ⟨-1, -1, 0⟩, ⟨1, -1, 0⟩] ∧
    CW.create_profile ("TRIANGLE") 1 3
      = Except.error "Unsupported profile type" :=
  ⟨by norm_num, by norm_num,
    (c2_profile_generator 1 3 (by norm_num) (by norm_num)).2.2.1,
    (c2_profile_generator 1 3 (by norm_num) (by norm_num)).2.2.2.2.2.2
      ("TRIANGLE") (by decide) (by decide)⟩

/-- Surviving vertices pairwise farther apart than the weld threshold —
the invariant established by one remove-doubles pass. -/
def FarApart (t : K) (l : List (Vec3 K)) : Prop :=
  l.Pairwise fun a b => ¬ distSq a b ≤ t * t

/-- The kept buffer only grows during a sweep. -/
theorem removeDoublesAux_kept_len (t : K) (vs : List (Vec3 K)) :
    ∀ kept, kept.length ≤ (removeDoublesAux t kept vs).1.length := by
  induction vs with
  | nil => intro kept; simp [removeDoublesAux]
  | cons v rest ih =>
    intro kept
    simp only [removeDoublesAux]
    by_cases hc : (kept.findIdx fun w => decide (distSq w v ≤ t * t))
        < kept.length
    · rw [if_pos hc]
      exact ih kept
    · rw [if_neg hc]
      calc kept.length ≤ (kept ++ [v]).length := by simp
        _ ≤ _ := ih (kept ++ [v])

/-- A sweep starting from a pairwise-far kept buffer keeps it pairwise far:
a vertex is only appended as kept when no kept vertex is within the
threshold. -/
theorem removeDoublesAux_far (t : K) (vs : List (Vec3 K)) :
    ∀ kept, FarApart t kept → FarApart t (removeDoublesAux t kept vs).1 := by
  induction vs with
  | nil => intro kept h; simpa [removeDoublesAux] using h
  | cons v rest ih =>
    intro kept h
    simp only [removeDoublesAux]
    by_cases hc : (kept.findIdx fun w => decide (distSq w v ≤ t * t))
        < kept.length
    · rw [if_pos hc]
      exact ih kept h
    · rw [if_neg hc]
      refine ih (kept ++ [v]) ?_
      have hfarv : ∀ w ∈ kept, ¬ distSq w v ≤ t * t := by
        intro w hw hle
        exact hc (List.findIdx_lt_length_of_exists ⟨w, hw, by simpa using hle⟩)
      rw [FarApart, List.pairwise_append]
      refine ⟨h, List.pairwise_singleton _ _, ?_⟩
      intro a ha b hb
      simp only [List.mem_singleton] at hb
      subst hb
      exact hfarv a ha

/-- Every index the sweep records points at a kept vertex. -/
theorem removeDoublesAux_map_lt (t : K) (vs : List (Vec3 K)) :
    ∀ kept, ∀ x ∈ (removeDoublesAux t kept vs).2,
      x < (removeDoublesAux t kept vs).1.length := by
  induction vs with
  | nil => intro kept x hx; simp [removeDoublesAux] at hx
  | cons v rest ih =>
    intro kept x hx
    simp only [removeDoublesAux] at hx ⊢
    by_cases hc : (kept.findIdx fun w => decide (distSq w v ≤ t * t))
        < kept.length
    · rw [if_pos hc] at hx ⊢
      rcases List.mem_cons.mp hx with rfl | hx2
      · exact lt_of_lt_of_le hc (removeDoublesAux_kept_len t rest kept)
      · exact ih kept x hx2
    · rw [if_neg hc] at hx ⊢
      rcases List.mem_cons.mp hx with rfl | hx2
      · calc kept.length < (kept ++ [v]).length := by simp
          _ ≤ _ := removeDoublesAux_kept_len t rest (kept ++ [v])
      · exact ih (kept ++ [v]) x hx2

/-- On an input already pairwise far from the kept buffer and internally
pairwise far, the sweep keeps everything in order and the index map is the
identity range. -/
theorem removeDoublesAux_far_eq (t : K) (vs : List (Vec3 K)) :
    ∀ kept, FarApart t (kept ++ vs) →
      removeDoublesAux t kept vs
        = (kept ++ vs, List.range' kept.length vs.length) := by
  induction vs with
  | nil => intro kept h; simp [removeDoublesAux]
  | cons v rest ih =>
    intro kept h
    have hfarv : ∀ w ∈ kept, ¬ distSq w v ≤ t * t := by
      have hp := (List.pairwise_append.mp h).2.2
      intro w hw
      exact hp w hw v (by simp)
    have hc : ¬ (kept.findIdx fun w => decide (distSq w v ≤ t * t))
        < kept.length := by
      intro hlt2
      have hpget := @List.findIdx_getElem _
        (fun w => decide (distSq w v ≤ t * t)) kept hlt2
      exact hfarv _ (List.getElem_mem hlt2) (by simpa using hpget)
    simp only [removeDoublesAux]
    rw [if_neg hc]
    have h2 : FarApart t ((kept ++ [v]) ++ rest) := by
      simpa [List.append_assoc] using h
    rw [ih (kept ++ [v]) h2]
    simp [List.range'_succ]

/-- A list whose elements are all equal has at most one distinct element. -/
theorem dedup_le_one_of_const {α : Type} [DecidableEq α] (l : List α) (a : α)
    (hall : ∀ x ∈ l, x = a) : l.dedup.length ≤ 1 := by
  have hnd := List.nodup_dedup l
  have hall2 : ∀ x ∈ l.dedup, x = a := fun x hx =>
    hall x (List.mem_dedup.mp hx)
  rcases hd : l.dedup with _ | ⟨x, _ | ⟨y, rest⟩⟩
  · simp
  · simp
  · exfalso
    rw [hd] at hnd hall2
    have hx := hall2 x (by simp)
    have hy := hall2 y (by simp)
    rw [List.nodup_cons] at hnd
    exact hnd.1 (by rw [hx, ← hy]; simp)

/-- Reading the identity range at an in-range index. -/
theorem getD_range (n i : ℕ) (h : i < n) : (List.range n).getD i 0 = i := by
  rw [List.getD_eq_getElem _ _ (by simpa using h), List.getElem_range]

/-- Mapping a function that fixes every element is the identity. -/
theorem map_id_of_forall {α : Type} (l : List α) (f : α → α)
    (h : ∀ x ∈ l, f x = x) : l.map f = l := by
  induction l with
  | nil => rfl
  | cons x rest ih =>
    rw [List.map_cons, h x (by simp), ih (fun y hy => h y (by simp [hy]))]

/-- Invariants of one remove-doubles pass: the surviving vertices are
pairwise far apart, and every surviving face has at least 3 distinct
vertex indices, all pointing into the surviving vertex buffer. -/
theorem remove_doubles_invariant (m : WMesh K) (t : K) :
    FarApart t (remove_doubles m t).verts ∧
    ∀ fc ∈ (remove_doubles m t).faces,
      3 ≤ fc.dedup.length ∧
      ∀ x ∈ fc, x < (remove_doubles m t).verts.length := by
  constructor
  · exact removeDoublesAux_far t m.verts [] (by simp [FarApart])
  · intro fc hfc
    have hpred : 3 ≤ fc.dedup.length := by
      have := List.of_mem_filter hfc
      simpa using this
    refine ⟨hpred, ?_⟩
    intro x hx
    simp only [remove_doubles] at hfc ⊢
    have hmem := List.mem_of_mem_filter hfc
    rcases List.mem_map.mp hmem with ⟨fc0, hfc0, rfl⟩
    rcases List.mem_map.mp hx with ⟨j, hj, rfl⟩
    by_cases hpos : 0 < (removeDoublesAux t [] m.verts).1.length
    · by_cases hjlen : j < (removeDoublesAux t [] m.verts).2.length
      · refine removeDoublesAux_map_lt t m.verts [] _ ?_
        rw [List.getD_eq_getElem _ _ hjlen]
        exact List.getElem_mem hjlen
      · rw [List.getD_eq_default _ _ (le_of_not_lt hjlen)]
        exact hpos
    · exfalso
      have hall : ∀ y ∈ fc0.map fun i =>
          (removeDoublesAux t [] m.verts).2.getD i 0, y = 0 := by
        intro y hy
        rcases List.mem_map.mp hy with ⟨j2, hj2, rfl⟩
        by_cases hj2len : j2 < (removeDoublesAux t [] m.verts).2.length
        · have hmem2 : (removeDoublesAux t [] m.verts).2.getD j2 0
              ∈ (removeDoublesAux t [] m.verts).2 := by
            rw [List.getD_eq_getElem _ _ hj2len]
            exact List.getElem_mem hj2len
          have := removeDoublesAux_map_lt t m.verts [] _ hmem2
          omega
        · exact List.getD_eq_default _ _ (le_of_not_lt hj2len)
      have hle1 := dedup_le_one_of_const _ 0 hall
      have hpred2 : 3 ≤ ((fc0.map fun i =>
          (removeDoublesAux t [] m.verts).2.getD i 0).dedup.length) := by
        have := List.of_mem_filter hfc
        simpa using this
      omega

/-- A mesh whose vertices are already pairwise far apart and whose faces
are non-degenerate and in range is a fixed point of remove-doubles. -/
theorem remove_doubles_far_fixed (m : WMesh K) (t : K)
    (hfar : FarApart t m.verts)
    (hfc : ∀ fc ∈ m.faces,
      3 ≤ fc.dedup.length ∧ ∀ x ∈ fc, x < m.verts.length) :
    remove_doubles m t = m := by
  rcases m with ⟨V, F⟩
  have hsweep : removeDoublesAux t [] V = (V, List.range' 0 V.length) :=
    removeDoublesAux_far_eq t V [] (by simpa using hfar)
  simp only [remove_doubles, hsweep]
  have hmapid : ∀ fc ∈ F,
      (fc.map fun i => (List.range' 0 V.length).getD i 0) = fc := by
    intro fc hfcm
    apply map_id_of_forall
    intro x hx
    rw [← List.range_eq_range']
    exact getD_range _ _ ((hfc fc hfcm).2 x hx)
  have hfaces : (F.map fun fc =>
      fc.map fun i => (List.range' 0 V.length).getD i 0).filter
        (fun fc => decide (3 ≤ fc.dedup.length)) = F := by
    rw [List.map_congr_left hmapid, List.map_id']
    rw [List.filter_eq_self]
    intro fc hfcm
    simpa using (hfc fc hfcm).1
  rw [hfaces]

/-- Claim C6: vertex welding is idempotent — re-running remove-doubles with
the same threshold on an already-welded mesh changes nothing, since after
one pass no two surviving vertices are within the threshold and all
surviving faces are non-degenerate and in range. -/
theorem c6_weld_idempotent (mesh : WMesh K) (t : K) :
    merge_prism_vertices (merge_prism_vertices mesh t) t
      = merge_prism_vertices mesh t := by
  simp only [merge_prism_vertices]
  exact remove_doubles_far_fixed _ t (remove_doubles_invariant mesh t).1
    (remove_doubles_invariant mesh t).2

/-- Claim C1 (code bug): the source rotates the profile by
`edge_direction.rotation_difference(z_axis)` — the rotation taking the edge
direction TO the +Z axis, not its inverse — so for the oblique edge from
the origin to `(3, 0, 4)` (unit direction `(3/5, 0, 4/5)`), the SQUARE
profile instance at the first endpoint contains the chord from vertex 0 to
vertex 1 whose inner product with the edge direction is `48/25 ≠ 0`: the
instance does NOT lie in a plane perpendicular to the edge.  (A plane
perpendicular to the edge would make every such chord orthogonal to the
direction.) -/
theorem c1_profile_plane_not_perpendicular :
    PW.create_profile ("SQUARE") 1 12 = Except.ok (squareProfile 1) ∧
    dot
      (vsub
        ((edgePass rot_matrix (squareProfile 1)
          [(v0, ⟨3, 0, 4⟩)]).verts.getD 1 v0)
        ((edgePass rot_matrix (squareProfile 1)
          [(v0, ⟨3, 0, 4⟩)]).verts.getD 0 v0))
      (normalized (vsub ⟨3, 0, 4⟩ v0)) ≠ 0 := by
  have hvsub : vsub (⟨3, 0, 4⟩ : Vec3 ℝ) v0 = ⟨3, 0, 4⟩ := by
    norm_num [vsub, v0]
  have hn : norm3 (⟨3, 0, 4⟩ : Vec3 ℝ) = 5 := by
    rw [norm3]
    have hdd : dot (⟨3, 0, 4⟩ : Vec3 ℝ) ⟨3, 0, 4⟩ = 25 := by norm_num [dot]
    rw [hdd, show (25 : ℝ) = 5 ^ 2 by norm_num, Real.sqrt_sq (by norm_num)]
  have hd : normalized (⟨3, 0, 4⟩ : Vec3 ℝ) = ⟨3 / 5, 0, 4 / 5⟩ := by
    rw [normalized, if_neg (by rw [hn]; norm_num), hn]
    norm_num [smul]
  have hn2 : norm3 (⟨3 / 5, 0, 4 / 5⟩ : Vec3 ℝ) = 1 := by
    rw [norm3]
    have hdd : dot (⟨3 / 5, 0, 4 / 5⟩ : Vec3 ℝ) ⟨3 / 5, 0, 4 / 5⟩ = 1 := by
      norm_num [dot]
    rw [hdd, Real.sqrt_one]
  have hd2 : normalized (⟨3 / 5, 0, 4 / 5⟩ : Vec3 ℝ) = ⟨3 / 5, 0, 4 / 5⟩ := by
    rw [normalized, if_neg (by rw [hn2]; norm_num), hn2]
    norm_num [smul]
  have hnz : norm3 (zAxis : Vec3 ℝ) = 1 := by
    rw [norm3]
    have hdd : dot (zAxis : Vec3 ℝ) zAxis = 1 := by norm_num [dot, zAxis]
    rw [hdd, Real.sqrt_one]
  have hdz : normalized (zAxis : Vec3 ℝ) = zAxis := by
    rw [normalized, if_neg (by rw [hnz]; norm_num), hnz]
    norm_num [smul, zAxis]
  have hcross : cross (⟨3 / 5, 0, 4 / 5⟩ : Vec3 ℝ) zAxis = ⟨0, -(3 / 5), 0⟩ := by
    norm_num [cross, zAxis]
  have hdot : dot (⟨3 / 5, 0, 4 / 5⟩ : Vec3 ℝ) zAxis = 4 / 5 := by
    norm_num [dot, zAxis]
  have hRM : rot_matrix v0 ⟨3, 0, 4⟩
      = ⟨4 / 5, 0, -(3 / 5), 0, 1, 0, 3 / 5, 0, 4 / 5⟩ := by
    rw [rot_matrix, hvsub, hd]
    simp only [rotation_difference, hd2, hdz]
    rw [hcross, if_neg (by norm_num [v0]), hdot]
    norm_num [rodriguesMat]
  have hv0 : (edgePass rot_matrix (squareProfile 1)
      [(v0, ⟨3, 0, 4⟩)]).verts.getD 0 v0
        = vadd ((rot_matrix v0 ⟨3, 0, 4⟩).mulVec ⟨-1, -1, 0⟩) v0 := by
    simp [edgePass, processEdge, squareProfile]
  have hv1 : (edgePass rot_matrix (squareProfile 1)
      [(v0, ⟨3, 0, 4⟩)]).verts.getD 1 v0
        = vadd ((rot_matrix v0 ⟨3, 0, 4⟩).mulVec ⟨1, -1, 0⟩) v0 := by
    simp [edgePass, processEdge, squareProfile]
  constructor
  · simp [PW.create_profile, PW.create_profile_core, squareProfile]
  · rw [hv0, hv1, hRM, hvsub, hd]
    norm_num [Mat3.mulVec, vadd, vsub, dot, v0]

end LBT
